import Mathlib

/-
Verification of the top-n-spotify program (src/top-n-spotify.py).

The development shallowly embeds the logic of the script:
  - parse_release_date        (lines 11-19)
  - calculate_custom_score    (lines 22-51)
  - the pagination, batching, null-filtering, dedup-by-id, sort and
    name-dedup selection steps of main (lines 118-171)
and proves the claims of the specification against these definitions.

Machine reals of the script (Python floats) are modelled by the real
numbers; Python ints by unbounded integers, as Python ints are unbounded.
Both datetime.now() occurrences in the script are modelled by a single
reference date passed as a parameter, matching the single logical
reference instant of the specification.
-/

namespace TopNSpotify

/-- Calendar date, modelling a Python datetime at midnight.  The script
only ever builds dates via datetime(y, m, d) or date parsing, and only
ever uses their difference in whole days. -/
structure Date where
  year : ℤ
  month : ℤ
  day : ℤ
deriving DecidableEq, Repr

/-- Leap-year test of the proleptic Gregorian calendar used by Python
datetime. -/
def isLeap (y : ℤ) : Bool :=
  y % 4 == 0 && (y % 100 != 0 || y % 400 == 0)

/-- Number of days of month m in year y (proleptic Gregorian). -/
def daysInMonth (y m : ℤ) : ℤ :=
  if m = 2 then (if isLeap y then 29 else 28)
  else if m = 4 ∨ m = 6 ∨ m = 9 ∨ m = 11 then 30
  else 31

/-- Days in the years before year y, matching datetime.toordinal. -/
def daysBeforeYear (y : ℤ) : ℤ :=
  365 * (y - 1) + (y - 1) / 4 - (y - 1) / 100 + (y - 1) / 400

/-- Days in the months of year y before month m. -/
def daysBeforeMonth (y m : ℤ) : ℤ :=
  (((List.range (m.toNat - 1)).map (fun i => daysInMonth y ((i : ℤ) + 1))).foldl (· + ·) 0)

/-- Proleptic-Gregorian ordinal of a date, modelling datetime.toordinal;
the difference of two ordinals is the whole-day difference the script
computes with (datetime.now() - release_date).days. -/
def dateOrdinal (d : Date) : ℤ :=
  daysBeforeYear d.year + daysBeforeMonth d.year d.month + d.day

/-- The datetime(year, month, day) constructor: some date when the fields
are in range (years 1..9999, as in Python datetime), none when the
constructor would raise ValueError. -/
def mkDatetime (y m d : ℤ) : Option Date :=
  if 1 ≤ y ∧ y ≤ 9999 ∧ 1 ≤ m ∧ m ≤ 12 ∧ 1 ≤ d ∧ d ≤ daysInMonth y m then
    some ⟨y, m, d⟩
  else none

/-- Value of a decimal digit character, none for a non-digit. -/
def charDigit (c : Char) : Option ℕ :=
  if '0' ≤ c ∧ c ≤ '9' then some (c.toNat - 48) else none

/-- Accumulating decimal parse of the remaining digit characters. -/
def parseDigitsAux (acc : ℕ) : List Char → Option ℕ
  | [] => some acc
  | c :: cs =>
    match charDigit c with
    | none => none
    | some d => parseDigitsAux (10 * acc + d) cs

/-- Decimal parse of a nonempty all-digit character list. -/
def parseNonemptyDigits : List Char → Option ℕ
  | [] => none
  | c :: cs =>
    match charDigit c with
    | none => none
    | some d => parseDigitsAux d cs

/-- The Python int(str) conversion on the strings reaching it here: an
optional sign followed by at least one digit converts; anything else
(such as the empty string or letters) raises ValueError, modelled as
none. -/
def pyInt : List Char → Option ℤ
  | '+' :: cs => (parseNonemptyDigits cs).map (fun n => (n : ℤ))
  | '-' :: cs => (parseNonemptyDigits cs).map (fun n => -(n : ℤ))
  | cs => (parseNonemptyDigits cs).map (fun n => (n : ℤ))

/-- The str.split on the dash character: always yields at least one
part, exactly as in Python. -/
def splitOnDash : List Char → List (List Char)
  | [] => [[]]
  | c :: cs =>
    if c = '-' then [] :: splitOnDash cs
    else
      match splitOnDash cs with
      | [] => [[c]]
      | p :: ps => (c :: p) :: ps

/-- Model of datetime.fromisoformat restricted to plain calendar-date
strings: it accepts exactly the fully dated YYYY-MM-DD form (the only
fully dated shape a Spotify release_date takes) and rejects everything
else with ValueError, modelled as none. -/
def fromisoformat (s : List Char) : Option Date :=
  match s with
  | [y1, y2, y3, y4, s1, m1, m2, s2, d1, d2] =>
    if s1 = '-' ∧ s2 = '-' then
      match charDigit y1, charDigit y2, charDigit y3, charDigit y4,
            charDigit m1, charDigit m2, charDigit d1, charDigit d2 with
      | some a, some b, some c, some d, some e, some f, some g, some h =>
        mkDatetime (1000 * a + 100 * b + 10 * c + d) (10 * e + f) (10 * g + h)
      | _, _, _, _, _, _, _, _ => none
    else none
  | _ => none

/-- Embedding of parse_release_date (lines 11-19).  The reference date
now models datetime.now().  Where the Python function raises an uncaught
ValueError (from int(...) or datetime(...) inside the except handler),
the embedding returns Except.error. -/
def parse_release_date (now : Date) (date_str : String) : Except String Date :=
  match fromisoformat date_str.toList with
  | some d => .ok d
  | none =>
    match splitOnDash date_str.toList with
    | [p0] =>
      match pyInt p0 with
      | none => .error "ValueError"
      | some y =>
        match mkDatetime y 1 1 with
        | some d => .ok d
        | none => .error "ValueError"
    | [p0, p1] =>
      match pyInt p0, pyInt p1 with
      | some y, some m =>
        match mkDatetime y m 1 with
        | some d => .ok d
        | none => .error "ValueError"
      | _, _ => .error "ValueError"
    | _ => .ok now

/-- Track record as the script consumes it: the fields read at lines
151, 158, 168, 188 plus the two fields read by calculate_custom_score.
The release_date field holds the value of
track.get(album-key, empty-dict).get(release-date-key, empty-string),
so an entirely absent release date is the empty string. -/
structure Track where
  id : String
  name : String
  popularity : Option ℤ
  release_date : String
  uri : String
deriving DecidableEq, Repr

/-- Whole days between the reference date and the release date, clamped
to a minimum of 0 (lines 34-37). -/
def clamped_days (now release_date : Date) : ℤ :=
  let days := dateOrdinal now - dateOrdinal release_date
  if days < 0 then 0 else days

/-- The age factor days_since_release + 2 of line 40, as a real. -/
noncomputable def age_factor_of (now release_date : Date) : ℝ :=
  ((clamped_days now release_date + 2 : ℤ) : ℝ)

/-- The multiplier branch of lines 42-49, reached only for a nonzero
aggressiveness: levels 1, 2, 3 and the default-to-balanced fallback. -/
noncomputable def multiplier (aggressiveness : ℤ) (age_factor : ℝ) : ℝ :=
  if aggressiveness = 1 then Real.log (Real.log age_factor + 1)
  else if aggressiveness = 2 then Real.log age_factor
  else if aggressiveness = 3 then Real.sqrt age_factor
  else Real.log age_factor

/-- Modelled from the spec: the per-level multiplier table of section
4.3, including the multiplier 1 of level 0; stated separately from the
code-shaped multiplier above so the score theorem can compare the two. -/
noncomputable def spec_multiplier (level : ℤ) (a : ℝ) : ℝ :=
  if level = 0 then 1
  else if level = 1 then Real.log (Real.log a + 1)
  else if level = 2 then Real.log a
  else if level = 3 then Real.sqrt a
  else Real.log a

/-- Embedding of calculate_custom_score (lines 22-51).  A parse failure
inside parse_release_date propagates, exactly as the uncaught Python
exception would. -/
noncomputable def calculate_custom_score (now : Date) (track : Track)
    (aggressiveness : ℤ) : Except String ℝ :=
  let popularity : ℤ := track.popularity.getD 0
  if aggressiveness = 0 then .ok (popularity : ℝ)
  else if track.release_date = "" then .ok (popularity : ℝ)
  else
    match parse_release_date now track.release_date with
    | .error e => .error e
    | .ok release_date =>
      .ok ((popularity : ℝ) *
        multiplier aggressiveness (age_factor_of now release_date))

/-- Release record of the paginated catalog; the script only ever reads
its id (line 128). -/
structure Release where
  id : String
deriving DecidableEq, Repr

/-- One response of sp.artist_albums: the items of the page and the
truthiness of the next field. -/
structure Page where
  items : List Release
  next : Bool

/-- Embedding of the pagination loop of lines 118-126, for a collaborator
fetch taking the limit and the offset.  The fuel argument bounds the
number of iterations so the loop is a total function; the pagination
theorem shows any fuel above the index of the last page gives the full
concatenation. -/
def collect_releases_aux (fetch : ℕ → ℕ → Page) :
    ℕ → ℕ → List Release → Option (List Release)
  | _, 0, _ => none
  | offset, fuel + 1, acc =>
    let results := fetch 50 offset
    if results.next then
      collect_releases_aux fetch (offset + 50) fuel (acc ++ results.items)
    else some (acc ++ results.items)

/-- The pagination loop started as at line 119: offset 0, no releases
collected yet. -/
def collect_releases (fetch : ℕ → ℕ → Page) (fuel : ℕ) : Option (List Release) :=
  collect_releases_aux fetch 0 fuel []

/-- Modelled from the spec: concatenation of the items of k successive
pages starting at the given offset, each requested with page size 50 and
offsets advancing by 50 — the value section 4.1 requires the collector to
return. -/
def pages_concat (fetch : ℕ → ℕ → Page) (base : ℕ) : ℕ → List Release
  | 0 => []
  | k + 1 => (fetch 50 base).items ++ pages_concat fetch (base + 50) k

/-- Fuel-indexed chunking; with fuel at least the length of the list and
a positive size this is exactly the Python slicing loop
for i in range(0, len(l), size): l[i:i+size]. -/
def chunksFuel (size : ℕ) : ℕ → List α → List (List α)
  | _, [] => []
  | 0, _ => []
  | fuel + 1, l => l.take size :: chunksFuel size fuel (l.drop size)

/-- The batching of lines 133-134 and 143-144: successive slices of the
given size. -/
def chunks (size : ℕ) (l : List α) : List (List α) :=
  chunksFuel size l.length l

/-- Release-details record as consumed by lines 136-138: the nested list
of track ids of the release. -/
structure AlbumDetails where
  tracks_items : List String
deriving DecidableEq, Repr

/-- The inner loop of lines 136-138 over one batch response of
sp.albums.  Subscripting a missing (null) album record raises TypeError
in Python, modelled as Except.error; otherwise the nested track ids are
appended in order. -/
def collect_track_ids_aux (acc : List String) :
    List (Option AlbumDetails) → Except String (List String)
  | [] => .ok acc
  | none :: _ => .error "TypeError"
  | some a :: rest => collect_track_ids_aux (acc ++ a.tracks_items) rest

/-- Track-id collection over a release-details response list, starting
from an empty accumulator as at line 132. -/
def collect_track_ids (albums : List (Option AlbumDetails)) :
    Except String (List String) :=
  collect_track_ids_aux [] albums

/-- One step of the dict comprehension of line 151, keyed by track id:
an id already present keeps its position and takes the later record, a
new id is appended. -/
def upsert (m : List Track) (t : Track) : List Track :=
  if m.any (fun u => u.id == t.id) then
    m.map (fun u => if u.id == t.id then t else u)
  else m ++ [t]

/-- Embedding of line 151: deduplication by track id via the insertion
order and overwrite semantics of a Python dict. -/
def dedup_by_id (l : List Track) : List Track :=
  l.foldl upsert []

/-- The selection loop of lines 163-171, with the accumulated playlist
and the seen-names set explicit. -/
def select_top_go (top_n : ℕ) (final : List Track) (seen : List String) :
    List Track → List Track
  | [] => final
  | t :: rest =>
    if top_n ≤ final.length then final
    else if t.name ∈ seen then select_top_go top_n final seen rest
    else select_top_go top_n (final ++ [t]) (t.name :: seen) rest

/-- The selection loop started with empty playlist and empty seen set. -/
def select_top (top_n : ℕ) (sorted_tracks : List Track) : List Track :=
  select_top_go top_n [] [] sorted_tracks

/-- The sort of lines 156-160.  Python sorted is a stable sort; with
reverse true it compares by descending key while keeping ties in input
order, which is exactly a stable merge sort under the
greater-or-equal-score comparison le. -/
def sorted_tracks_of (le : Track → Track → Bool) (unique_by_id_tracks : List Track) :
    List Track :=
  unique_by_id_tracks.mergeSort le

/-- Lines 150-171 end to end: null filtering, dedup by id, descending
stable sort under the comparator le, then name-deduplicating top-n
selection. -/
def final_tracks (le : Track → Track → Bool) (top_n : ℕ)
    (fetched : List (Option Track)) : List Track :=
  select_top top_n (sorted_tracks_of le (dedup_by_id (fetched.filterMap (fun x => x))))

/-- For a nonzero aggressiveness the code multiplier branch agrees with
the spec multiplier table. -/
theorem multiplier_eq_spec (a : ℤ) (h : a ≠ 0) (x : ℝ) :
    multiplier a x = spec_multiplier a x := by
  simp [multiplier, spec_multiplier, h]

/-- Parsing the empty string raises: fromisoformat rejects it and then
int of the empty single part raises ValueError. -/
theorem parse_release_date_empty (now : Date) :
    parse_release_date now "" = .error "ValueError" := rfl

/-- C1: for every track record and every integer aggressiveness level,
the score is popularity times the per-level multiplier of the spec table
(1 for level 0, nested log for 1, log for 2, sqrt for 3, the level-2
formula elsewhere); an absent popularity field is read as 0, and a track
with no release-date information scores its raw popularity at every
level. -/
theorem claim_C1 (now : Date) (t : Track) (a : ℤ) :
    (t.popularity = none → t.popularity.getD 0 = 0)
    ∧ (t.release_date = "" →
        calculate_custom_score now t a = .ok ((t.popularity.getD 0 : ℤ) : ℝ))
    ∧ (∀ d, parse_release_date now t.release_date = .ok d →
        calculate_custom_score now t a =
          .ok (((t.popularity.getD 0 : ℤ) : ℝ) * spec_multiplier a (age_factor_of now d))) := by
  refine ⟨fun h => by simp [h], fun h => ?_, fun d hd => ?_⟩
  · by_cases ha : a = 0 <;> simp [calculate_custom_score, ha, h]
  · by_cases ha : a = 0
    · simp [calculate_custom_score, ha, spec_multiplier]
    · by_cases hr : t.release_date = ""
      · rw [hr, parse_release_date_empty] at hd
        exact absurd hd (by simp)
      · simp [calculate_custom_score, ha, hr, hd, multiplier_eq_spec a ha]

/-- Witness for C1: a track with absent popularity reads 0; a track with
no release date scores its raw popularity at level 2; a dated track at
level 1 scores popularity times the level-1 multiplier of its age
factor. -/
theorem claim_C1_witness :
    ((⟨"i0", "N", none, "2001-05-17", "u0"⟩ : Track).popularity.getD 0 = 0)
    ∧ calculate_custom_score ⟨2001, 5, 18⟩ ⟨"i2", "B", some 70, "", "u2"⟩ 2 =
        .ok (((70 : ℤ) : ℝ))
    ∧ calculate_custom_score ⟨2001, 5, 18⟩ ⟨"i1", "A", some 80, "2001-05-17", "u1"⟩ 1 =
        .ok (((80 : ℤ) : ℝ) *
          spec_multiplier 1 (age_factor_of ⟨2001, 5, 18⟩ ⟨2001, 5, 17⟩)) :=
  ⟨(claim_C1 ⟨2001, 5, 18⟩ ⟨"i0", "N", none, "2001-05-17", "u0"⟩ 2).1 rfl,
   (claim_C1 ⟨2001, 5, 18⟩ ⟨"i2", "B", some 70, "", "u2"⟩ 2).2.1 rfl,
   (claim_C1 ⟨2001, 5, 18⟩ ⟨"i1", "A", some 80, "2001-05-17", "u1"⟩ 1).2.2 ⟨2001, 5, 17⟩ rfl⟩

/-- C3: the code, contrary to the spec, can raise on an unparseable
release-date string.  A string such as abc fails fromisoformat, splits
into a single dash-free part, and int of that part raises an uncaught
ValueError inside the except handler instead of reaching the
treat-as-now fallback. -/
theorem claim_C3 :
    parse_release_date ⟨2024, 1, 1⟩ "abc" = .error "ValueError" := rfl

/-- C8: the three supported release-date precisions parse to their
defaulted dates, for every reference date: a missing day defaults to the
1st and a missing month to January. -/
theorem claim_C8 (now : Date) :
    parse_release_date now "2001" = .ok ⟨2001, 1, 1⟩
    ∧ parse_release_date now "2001-05" = .ok ⟨2001, 5, 1⟩
    ∧ parse_release_date now "2001-05-17" = .ok ⟨2001, 5, 17⟩ :=
  ⟨rfl, rfl, rfl⟩

/-- C9: for every reference date and release date, the whole-day age is
clamped to at least 0, so the age factor is at least 2 and in particular
greater than 1, and every multiplier branch (nested log, log, sqrt, and
the fallback log) evaluates to a strictly positive real. -/
theorem claim_C9 (now rel : Date) :
    0 ≤ clamped_days now rel
    ∧ 2 ≤ age_factor_of now rel
    ∧ 1 < age_factor_of now rel
    ∧ ∀ a : ℤ, 0 < multiplier a (age_factor_of now rel) := by
  have h0 : 0 ≤ clamped_days now rel := by
    unfold clamped_days
    dsimp only
    split <;> omega
  have h2 : (2 : ℝ) ≤ age_factor_of now rel := by
    unfold age_factor_of
    exact_mod_cast by omega
  have h1 : (1 : ℝ) < age_factor_of now rel := lt_of_lt_of_le one_lt_two h2
  refine ⟨h0, h2, h1, fun a => ?_⟩
  have hlog : 0 < Real.log (age_factor_of now rel) := Real.log_pos h1
  unfold multiplier
  split_ifs
  · exact Real.log_pos (by linarith)
  · exact hlog
  · exact Real.sqrt_pos.mpr (by linarith)
  · exact hlog

/-- Logarithm is below the square root on the positive reals; the
quarter-root substitution turns the bound into the square
inequality. -/
theorem log_le_sqrt {A : ℝ} (hA : 0 < A) : Real.log A ≤ Real.sqrt A := by
  have hu0 : 0 < Real.sqrt (Real.sqrt A) :=
    Real.sqrt_pos.mpr (Real.sqrt_pos.mpr hA)
  have hlog : Real.log A = 4 * Real.log (Real.sqrt (Real.sqrt A)) := by
    rw [Real.log_sqrt (Real.sqrt_nonneg A), Real.log_sqrt hA.le]
    ring
  have hle : Real.log (Real.sqrt (Real.sqrt A)) ≤ Real.sqrt (Real.sqrt A) - 1 :=
    Real.log_le_sub_one_of_pos hu0
  have hsq : Real.sqrt (Real.sqrt A) ^ 2 = Real.sqrt A :=
    Real.sq_sqrt (Real.sqrt_nonneg A)
  nlinarith [sq_nonneg (Real.sqrt (Real.sqrt A) - 2)]

/-- C7: on the valid aggressiveness domain with age factor above 1 the
score is monotone in popularity, and above e to the e the per-level
multipliers are ordered: level 0 at most level 1 at most level 2 at most
level 3. -/
theorem claim_C7 (a : ℤ) (ha : a = 0 ∨ a = 1 ∨ a = 2 ∨ a = 3) (A : ℝ) (hA : 1 < A) :
    (∀ p1 p2 : ℝ, p1 ≤ p2 →
      p1 * spec_multiplier a A ≤ p2 * spec_multiplier a A)
    ∧ (Real.exp (Real.exp 1) ≤ A →
        spec_multiplier 0 A ≤ spec_multiplier 1 A
        ∧ spec_multiplier 1 A ≤ spec_multiplier 2 A
        ∧ spec_multiplier 2 A ≤ spec_multiplier 3 A) := by
  have hA0 : (0 : ℝ) < A := lt_trans zero_lt_one hA
  have hlogA : 0 < Real.log A := Real.log_pos hA
  have h0 : spec_multiplier 0 A = 1 := by norm_num [spec_multiplier]
  have h1 : spec_multiplier 1 A = Real.log (Real.log A + 1) := by
    norm_num [spec_multiplier]
  have h2 : spec_multiplier 2 A = Real.log A := by norm_num [spec_multiplier]
  have h3 : spec_multiplier 3 A = Real.sqrt A := by norm_num [spec_multiplier]
  have hnonneg : 0 ≤ spec_multiplier a A := by
    rcases ha with h | h | h | h <;> subst h
    · rw [h0]; norm_num
    · rw [h1]; exact (Real.log_pos (by linarith)).le
    · rw [h2]; exact hlogA.le
    · rw [h3]; exact Real.sqrt_nonneg A
  refine ⟨fun p1 p2 hp => mul_le_mul_of_nonneg_right hp hnonneg, fun hE => ?_⟩
  have hexp : Real.exp 1 ≤ Real.log A := by
    have hmono := (Real.log_le_log_iff (Real.exp_pos (Real.exp 1)) hA0).mpr hE
    rwa [Real.log_exp] at hmono
  refine ⟨?_, ?_, ?_⟩
  · rw [h0, h1]
    have hlogmono := (Real.log_le_log_iff (Real.exp_pos 1) (by linarith)).mpr
      (show Real.exp 1 ≤ Real.log A + 1 by linarith)
    rwa [Real.log_exp] at hlogmono
  · rw [h1, h2]
    have := Real.log_le_sub_one_of_pos (x := Real.log A + 1) (by linarith)
    linarith
  · rw [h2, h3]
    exact log_le_sqrt hA0

/-- Witness for C7: at level 2 and age factor e to the e, scores are
monotone from popularity 0 to 1, and the level-2 multiplier is at most
the level-3 multiplier. -/
theorem claim_C7_witness :
    (0 : ℝ) * spec_multiplier 2 (Real.exp (Real.exp 1)) ≤
      1 * spec_multiplier 2 (Real.exp (Real.exp 1))
    ∧ spec_multiplier 2 (Real.exp (Real.exp 1)) ≤
        spec_multiplier 3 (Real.exp (Real.exp 1)) := by
  have h := claim_C7 2 (by norm_num) (Real.exp (Real.exp 1))
    (Real.one_lt_exp_iff.mpr (Real.exp_pos 1))
  exact ⟨h.1 0 1 (by norm_num), (h.2 le_rfl).2.2⟩

/-- Unwinding of the pagination loop: if the page k steps ahead is the
first one signalling no further page, the loop returns the accumulator
followed by the concatenation of those k+1 pages, for any fuel above
k. -/
theorem collect_releases_aux_eq (fetch : ℕ → ℕ → Page) :
    ∀ (k base fuel : ℕ) (acc : List Release), k < fuel →
      (fetch 50 (base + 50 * k)).next = false →
      (∀ j, j < k → (fetch 50 (base + 50 * j)).next = true) →
      collect_releases_aux fetch base fuel acc =
        some (acc ++ pages_concat fetch base (k + 1)) := by
  intro k
  induction k with
  | zero =>
    intro base fuel acc hfuel hk _
    obtain ⟨f, rfl⟩ : ∃ f, fuel = f + 1 := ⟨fuel - 1, by omega⟩
    simp only [Nat.mul_zero, Nat.add_zero] at hk
    simp [collect_releases_aux, hk, pages_concat]
  | succ k ih =>
    intro base fuel acc hfuel hk hmin
    obtain ⟨f, rfl⟩ : ∃ f, fuel = f + 1 := ⟨fuel - 1, by omega⟩
    have hbase : (fetch 50 base).next = true := by
      have := hmin 0 (Nat.succ_pos k)
      simpa using this
    have hk' : (fetch 50 (base + 50 + 50 * k)).next = false := by
      have harith : base + 50 + 50 * k = base + 50 * (k + 1) := by ring
      rw [harith]
      exact hk
    have hmin' : ∀ j, j < k → (fetch 50 (base + 50 + 50 * j)).next = true := by
      intro j hj
      have harith : base + 50 + 50 * j = base + 50 * (j + 1) := by ring
      rw [harith]
      exact hmin (j + 1) (by omega)
    have hrec := ih (base + 50) f (acc ++ (fetch 50 base).items) (by omega) hk' hmin'
    simp only [collect_releases_aux, hbase, if_true]
    rw [hrec]
    simp [pages_concat, List.append_assoc]

/-- C5: the release-collection loop issues requests of fixed page size
50 at offsets 0, 50, 100, ... until the collaborator first signals no
further page, and returns exactly the concatenation of the items of all
pages fetched, however many pages the catalog has. -/
theorem claim_C5 (fetch : ℕ → ℕ → Page) (k fuel : ℕ)
    (hk : (fetch 50 (50 * k)).next = false)
    (hmin : ∀ j, j < k → (fetch 50 (50 * j)).next = true)
    (hfuel : k < fuel) :
    collect_releases fetch fuel = some (pages_concat fetch 0 (k + 1)) := by
  have h := collect_releases_aux_eq fetch k 0 fuel [] hfuel
    (by simpa using hk) (by simpa using hmin)
  simpa [collect_releases] using h

/-- Witness for C5: a two-page catalog, where the first response points
to a next page and the second does not, collects both pages in order. -/
theorem claim_C5_witness :
    collect_releases
      (fun _ offset => if offset = 0 then ⟨[⟨"r1"⟩], true⟩ else ⟨[⟨"r2"⟩], false⟩) 2 =
      some [⟨"r1"⟩, ⟨"r2"⟩] := by
  have h := claim_C5
    (fun _ offset => if offset = 0 then ⟨[⟨"r1"⟩], true⟩ else ⟨[⟨"r2"⟩], false⟩)
    1 2 (by decide) (by decide) (by decide)
  simpa [pages_concat] using h

/-- Chunking the empty list gives no chunks at any fuel. -/
theorem chunksFuel_nil (size fuel : ℕ) :
    chunksFuel size fuel ([] : List α) = [] := by
  cases fuel <;> rfl

/-- Concatenating the chunks returns the original list, for a positive
size and fuel at least the length. -/
theorem chunksFuel_flatten (size : ℕ) (hs : 0 < size) :
    ∀ (fuel : ℕ) (l : List α), l.length ≤ fuel →
      (chunksFuel size fuel l).flatten = l := by
  intro fuel
  induction fuel with
  | zero =>
    intro l hl
    have : l = [] := List.eq_nil_of_length_eq_zero (by omega)
    simp [this, chunksFuel_nil]
  | succ fuel ih =>
    intro l hl
    cases l with
    | nil => simp [chunksFuel_nil]
    | cons x xs =>
      have hlen : xs.length + 1 ≤ fuel + 1 := by simpa using hl
      have hrec := ih ((x :: xs).drop size)
        (by simp only [List.length_drop, List.length_cons]; omega)
      simp only [chunksFuel, List.flatten_cons, hrec]
      exact List.take_append_drop size (x :: xs)

/-- Every chunk is at most the requested size. -/
theorem chunksFuel_length_le (size : ℕ) :
    ∀ (fuel : ℕ) (l : List α) (c : List α), c ∈ chunksFuel size fuel l →
      c.length ≤ size := by
  intro fuel
  induction fuel with
  | zero =>
    intro l c hc
    rw [show chunksFuel size 0 l = [] by cases l <;> rfl] at hc
    simp at hc
  | succ fuel ih =>
    intro l c hc
    cases l with
    | nil => simp [chunksFuel_nil] at hc
    | cons x xs =>
      simp only [chunksFuel, List.mem_cons] at hc
      rcases hc with rfl | hc
      · exact List.length_take_le size (x :: xs)
      · exact ih _ c hc

/-- Every chunk except possibly the last is exactly full, for a positive
size and fuel at least the length. -/
theorem chunksFuel_dropLast_full (size : ℕ) (hs : 0 < size) :
    ∀ (fuel : ℕ) (l : List α), l.length ≤ fuel →
      ∀ c ∈ (chunksFuel size fuel l).dropLast, c.length = size := by
  intro fuel
  induction fuel with
  | zero =>
    intro l hl c hc
    have : l = [] := List.eq_nil_of_length_eq_zero (by omega)
    simp [this, chunksFuel_nil] at hc
  | succ fuel ih =>
    intro l hl c hc
    cases l with
    | nil => simp [chunksFuel_nil] at hc
    | cons x xs =>
      have hlen : xs.length + 1 ≤ fuel + 1 := by simpa using hl
      simp only [chunksFuel] at hc
      cases hrest : chunksFuel size fuel ((x :: xs).drop size) with
      | nil => simp [hrest] at hc
      | cons r rs =>
        rw [hrest, List.dropLast_cons₂, List.mem_cons] at hc
        have hdrop : (x :: xs).drop size ≠ [] := by
          intro hdropnil
          rw [hdropnil, chunksFuel_nil] at hrest
          exact List.noConfusion hrest
        have hpos : 0 < ((x :: xs).drop size).length :=
          List.length_pos.mpr hdrop
        have hsize : size < xs.length + 1 := by
          simp only [List.length_drop, List.length_cons] at hpos
          omega
        rcases hc with rfl | hc
        · simp only [List.length_take, List.length_cons]
          omega
        · have hih := ih ((x :: xs).drop size)
            (by simp only [List.length_drop, List.length_cons]; omega) c
          rw [hrest] at hih
          exact hih hc

/-- C6: release ids are cut into consecutive batches of size 20 and
track ids into consecutive batches of size 50; every batch respects its
ceiling, every batch except possibly the last is exactly full, the
batches concatenate back to the input, and 45 release ids produce
batches of sizes 20, 20, 5. -/
theorem claim_C6 {α β : Type} (release_ids : List α) (track_ids : List β) :
    (∀ c ∈ chunks 20 release_ids, c.length ≤ 20)
    ∧ (∀ c ∈ (chunks 20 release_ids).dropLast, c.length = 20)
    ∧ (chunks 20 release_ids).flatten = release_ids
    ∧ (∀ c ∈ chunks 50 track_ids, c.length ≤ 50)
    ∧ (∀ c ∈ (chunks 50 track_ids).dropLast, c.length = 50)
    ∧ (chunks 50 track_ids).flatten = track_ids
    ∧ (chunks 20 (List.range 45)).map List.length = [20, 20, 5] := by
  refine ⟨fun c hc => chunksFuel_length_le 20 _ _ c hc,
    fun c hc => chunksFuel_dropLast_full 20 (by norm_num) _ _ le_rfl c hc,
    chunksFuel_flatten 20 (by norm_num) _ _ le_rfl,
    fun c hc => chunksFuel_length_le 50 _ _ c hc,
    fun c hc => chunksFuel_dropLast_full 50 (by norm_num) _ _ le_rfl c hc,
    chunksFuel_flatten 50 (by norm_num) _ _ le_rfl,
    by decide⟩

/-- Witness for C6: concrete instances of the bound, the fullness of a
non-final batch, and the round trip, on 45 release ids and 51 track
ids. -/
theorem claim_C6_witness :
    (List.range 20).length ≤ 20
    ∧ ((List.range 45).take 20).length = 20
    ∧ (chunks 20 (List.range 45)).flatten = List.range 45
    ∧ (chunks 50 (List.range 51)).flatten = List.range 51 := by
  have h := claim_C6 (List.range 45) (List.range 51)
  exact ⟨h.1 (List.range 20) (by decide), h.2.1 ((List.range 45).take 20) (by decide),
    h.2.2.1, h.2.2.2.2.2.1⟩

/-- The ids of an upsert: an overwrite keeps the id sequence, an insert
appends the new id. -/
theorem upsert_map_id (m : List Track) (t : Track) :
    (upsert m t).map Track.id =
      if m.any (fun u => u.id == t.id) then m.map Track.id
      else m.map Track.id ++ [t.id] := by
  unfold upsert
  split
  · rw [List.map_map]
    apply List.map_congr_left
    intro u _
    by_cases h : u.id = t.id
    · simp [h]
    · simp [h]
  · simp

/-- Folding upserts preserves distinctness of the key sequence. -/
theorem foldl_upsert_ids_nodup :
    ∀ (l acc : List Track), (acc.map Track.id).Nodup →
      ((l.foldl upsert acc).map Track.id).Nodup := by
  intro l
  induction l with
  | nil => intro acc hacc; simpa using hacc
  | cons t rest ih =>
    intro acc hacc
    rw [List.foldl_cons]
    apply ih
    rw [upsert_map_id]
    by_cases hany : acc.any (fun u => u.id == t.id)
    · rw [if_pos hany]; exact hacc
    · rw [if_neg hany]
      have hnot : t.id ∉ acc.map Track.id := by
        intro hmem
        rcases List.mem_map.mp hmem with ⟨u, hu, hid⟩
        exact hany (List.any_eq_true.mpr ⟨u, hu, by simp [hid]⟩)
      simp [List.nodup_append, hacc, hnot]

/-- The dict comprehension of line 151 yields pairwise distinct ids. -/
theorem dedup_by_id_ids_nodup (l : List Track) :
    ((dedup_by_id l).map Track.id).Nodup :=
  foldl_upsert_ids_nodup l [] (by simp)

/-- Members of an upsert come from the old map or are the new record. -/
theorem mem_upsert {u : Track} (m : List Track) (t : Track)
    (h : u ∈ upsert m t) : u ∈ m ∨ u = t := by
  unfold upsert at h
  split at h
  · rcases List.mem_map.mp h with ⟨v, hv, hu⟩
    by_cases hid : v.id = t.id
    · right
      rw [← hu]
      simp [hid]
    · left
      rw [← hu]
      simpa [hid] using hv
  · rcases List.mem_append.mp h with h1 | h1
    · exact Or.inl h1
    · exact Or.inr (by simpa using h1)

/-- Members of the folded dict come from the accumulator or the
input. -/
theorem mem_foldl_upsert :
    ∀ (l acc : List Track) (u : Track), u ∈ l.foldl upsert acc →
      u ∈ acc ∨ u ∈ l := by
  intro l
  induction l with
  | nil => intro acc u h; simpa using h
  | cons t rest ih =>
    intro acc u h
    rw [List.foldl_cons] at h
    rcases ih (upsert acc t) u h with h1 | h1
    · rcases mem_upsert acc t h1 with h2 | h2
      · exact Or.inl h2
      · exact Or.inr (by simp [h2])
    · exact Or.inr (List.mem_cons_of_mem t h1)

/-- Deduplication by id produces only records of the input list. -/
theorem mem_dedup_by_id {u : Track} (l : List Track)
    (h : u ∈ dedup_by_id l) : u ∈ l := by
  rcases mem_foldl_upsert l [] u h with h1 | h1
  · simp at h1
  · exact h1

/-- Permutations of a list carry the same finset of elements. -/
theorem perm_toFinset {l l' : List String} (p : l.Perm l') :
    l.toFinset = l'.toFinset := by
  ext a
  simp [List.mem_toFinset, p.mem_iff]

/-- Master invariant of the selection loop of lines 163-171: with the
seen set holding exactly the names already appended and those names
pairwise distinct, the loop output has pairwise distinct names, extends
the accumulated playlist by a sublist of the remaining input, and has
length the accumulated length plus the number of distinct unseen names
in the remaining input, capped at the remaining quota. -/
theorem select_top_go_spec (n : ℕ) :
    ∀ (l final : List Track) (seen : List String),
      (∀ s, s ∈ seen ↔ s ∈ final.map Track.name) →
      (final.map Track.name).Nodup →
      ((select_top_go n final seen l).map Track.name).Nodup
      ∧ (∃ s, s.Sublist l ∧ select_top_go n final seen l = final ++ s)
      ∧ (select_top_go n final seen l).length =
          final.length +
            min (n - final.length)
              ((l.map Track.name).filter (fun s => decide (s ∉ seen))).toFinset.card := by
  intro l
  induction l with
  | nil =>
    intro final seen _ hnodup
    refine ⟨by simpa [select_top_go] using hnodup,
      ⟨[], List.nil_sublist [], by simp [select_top_go]⟩, ?_⟩
    simp [select_top_go]
  | cons t rest ih =>
    intro final seen hiff hnodup
    by_cases hn : n ≤ final.length
    · rw [select_top_go, if_pos hn]
      refine ⟨hnodup, ⟨[], List.nil_sublist _, by simp⟩, ?_⟩
      rw [Nat.sub_eq_zero_of_le hn]
      simp
    · by_cases hseen : t.name ∈ seen
      · rw [select_top_go, if_neg hn, if_pos hseen]
        obtain ⟨Hnodup, ⟨s, hs, Heq⟩, Hlen⟩ := ih final seen hiff hnodup
        refine ⟨Hnodup, ⟨s, hs.cons t, Heq⟩, ?_⟩
        have hfilter :
            ((t :: rest).map Track.name).filter (fun s => decide (s ∉ seen)) =
              (rest.map Track.name).filter (fun s => decide (s ∉ seen)) := by
          simp [hseen]
        rw [hfilter]
        exact Hlen
      · rw [select_top_go, if_neg hn, if_neg hseen]
        have hnotin : t.name ∉ final.map Track.name :=
          fun hmem => hseen ((hiff t.name).mpr hmem)
        have hiff' : ∀ s, s ∈ t.name :: seen ↔ s ∈ (final ++ [t]).map Track.name := by
          intro s
          simp only [List.mem_cons, List.map_append, List.mem_append,
            List.map_cons, List.map_nil, List.mem_singleton, hiff s]
          tauto
        have hnodup' : ((final ++ [t]).map Track.name).Nodup := by
          simp [List.nodup_append, hnodup, hnotin]
        obtain ⟨Hnodup, ⟨s, hs, Heq⟩, Hlen⟩ :=
          ih (final ++ [t]) (t.name :: seen) hiff' hnodup'
        refine ⟨Hnodup, ⟨t :: s, hs.cons₂ t, ?_⟩, ?_⟩
        · rw [Heq, List.append_assoc, List.singleton_append]
        · have hA :
              (((t :: rest).map Track.name).filter
                  (fun s => decide (s ∉ seen))).toFinset =
                insert t.name
                  (((rest.map Track.name).filter
                      (fun s => decide (s ∉ seen))).toFinset) := by
            simp [hseen]
          have hB :
              (((rest.map Track.name).filter
                  (fun s => decide (s ∉ t.name :: seen))).toFinset) =
                (((rest.map Track.name).filter
                    (fun s => decide (s ∉ seen))).toFinset).erase t.name := by
            ext x
            simp only [List.mem_toFinset, List.mem_filter, Finset.mem_erase,
              List.mem_cons, decide_eq_true_eq]
            tauto
          set A := ((rest.map Track.name).filter
            (fun s => decide (s ∉ seen))).toFinset with hAdef
          have hcard : (insert t.name A).card = (A.erase t.name).card + 1 := by
            by_cases hmem : t.name ∈ A
            · rw [Finset.insert_eq_self.mpr hmem, Finset.card_erase_of_mem hmem]
              have := Finset.card_pos.mpr ⟨t.name, hmem⟩
              omega
            · rw [Finset.card_insert_of_not_mem hmem,
                Finset.erase_eq_of_not_mem hmem]
          have hlt : final.length < n := not_le.mp hn
          rw [Heq] at Hlen ⊢
          rw [List.length_append] at Hlen ⊢
          rw [hB] at Hlen
          rw [hA, hcard]
          simp only [List.length_append, List.length_singleton] at Hlen ⊢
          omega

/-- C2: for every run (any descending-score comparator, requested count
and fetched batch results), the selected output has no two entries with
the same name, no two entries with the same id, at most top-n entries,
and exactly the minimum of top-n and the number of distinct names in the
deduplicated catalog — so it falls short of top-n only when fewer
uniquely named tracks exist. -/
theorem claim_C2 (le : Track → Track → Bool) (n : ℕ)
    (fetched : List (Option Track)) :
    ((final_tracks le n fetched).map Track.name).Nodup
    ∧ ((final_tracks le n fetched).map Track.id).Nodup
    ∧ (final_tracks le n fetched).length ≤ n
    ∧ (final_tracks le n fetched).length =
        min n
          (((dedup_by_id (fetched.filterMap (fun x => x))).map
              Track.name).toFinset.card) := by
  have hperm :
      (sorted_tracks_of le (dedup_by_id (fetched.filterMap (fun x => x)))).Perm
        (dedup_by_id (fetched.filterMap (fun x => x))) :=
    List.mergeSort_perm _ le
  obtain ⟨Hnodup, ⟨s, hs, Heq⟩, Hlen⟩ :=
    select_top_go_spec n
      (sorted_tracks_of le (dedup_by_id (fetched.filterMap (fun x => x))))
      [] [] (by simp) (by simp)
  have hfinal : final_tracks le n fetched =
      select_top_go n [] []
        (sorted_tracks_of le (dedup_by_id (fetched.filterMap (fun x => x)))) := rfl
  have hids : ((final_tracks le n fetched).map Track.id).Nodup := by
    rw [hfinal, Heq, List.nil_append]
    exact (hs.map Track.id).nodup
      ((hperm.map Track.id).nodup_iff.mpr
        (dedup_by_id_ids_nodup (fetched.filterMap (fun x => x))))
  have hfilter :
      ((sorted_tracks_of le (dedup_by_id (fetched.filterMap (fun x => x)))).map
          Track.name).filter (fun s => decide (s ∉ ([] : List String))) =
        (sorted_tracks_of le (dedup_by_id (fetched.filterMap (fun x => x)))).map
          Track.name := by
    apply List.filter_eq_self.mpr
    intro a _
    simp
  have hsets := perm_toFinset (hperm.map Track.name)
  have hlen : (final_tracks le n fetched).length =
      min n
        (((dedup_by_id (fetched.filterMap (fun x => x))).map
            Track.name).toFinset.card) := by
    rw [hfinal, Hlen, hfilter, hsets]
    simp
  exact ⟨by rw [hfinal]; exact Hnodup, hids,
    by rw [hlen]; exact min_le_left _ _, hlen⟩

/-- Parsing helper for C4: once a null album record is in the response
list, the track-id collection raises TypeError no matter what was
already accumulated. -/
theorem collect_track_ids_aux_error (albums : List (Option AlbumDetails))
    (h : none ∈ albums) :
    ∀ acc, collect_track_ids_aux acc albums = .error "TypeError" := by
  induction albums with
  | nil => simp at h
  | cons a rest ih =>
    intro acc
    cases a with
    | none => rfl
    | some ad =>
      have hr : none ∈ rest := by
        rcases List.mem_cons.mp h with h1 | h2
        · exact absurd h1 (by simp)
        · exact h2
      exact ih hr _

/-- Counterexample to C4 as stated: a null slot in a release-details
batch response is not dropped — the script raises TypeError at
album['tracks'] (lines 136-137). -/
theorem claim_C4_counterexample :
    collect_track_ids [none] = .error "TypeError" := rfl

/-- C4 as amended: a null slot in a full-track batch never contributes
to the final output (every selected track is a non-null fetched slot,
and the filter at line 150 is a total function), while a null slot in a
release-details batch raises TypeError instead of being dropped. -/
theorem claim_C4 (le : Track → Track → Bool) (n : ℕ)
    (fetched : List (Option Track)) (albums : List (Option AlbumDetails)) :
    (∀ t, t ∈ final_tracks le n fetched → some t ∈ fetched)
    ∧ (none ∈ albums → collect_track_ids albums = .error "TypeError") := by
  constructor
  · intro t ht
    obtain ⟨Hnodup, ⟨s, hs, Heq⟩, Hlen⟩ :=
      select_top_go_spec n
        (sorted_tracks_of le (dedup_by_id (fetched.filterMap (fun x => x))))
        [] [] (by simp) (by simp)
    have hfinal : final_tracks le n fetched =
        select_top_go n [] []
          (sorted_tracks_of le (dedup_by_id (fetched.filterMap (fun x => x)))) := rfl
    rw [hfinal, Heq, List.nil_append] at ht
    have hsorted := hs.subset ht
    have hperm :
        (sorted_tracks_of le (dedup_by_id (fetched.filterMap (fun x => x)))).Perm
          (dedup_by_id (fetched.filterMap (fun x => x))) :=
      List.mergeSort_perm _ le
    have hdedup := hperm.mem_iff.mp hsorted
    have hfiltered := mem_dedup_by_id _ hdedup
    rcases List.mem_filterMap.mp hfiltered with ⟨x, hx, hxt⟩
    cases x with
    | none => exact absurd hxt (by simp)
    | some v =>
      have : v = t := by simpa using hxt
      rwa [this] at hx
  · intro h
    exact collect_track_ids_aux_error albums h []

/-- Witness for C4: a non-null fetched track selected into the output is
indeed one of the fetched slots, and a release-details response with a
null second slot raises. -/
theorem claim_C4_witness :
    (some (⟨"w1", "W", some 3, "", "uw"⟩ : Track) ∈
      [some (⟨"w1", "W", some 3, "", "uw"⟩ : Track)])
    ∧ collect_track_ids [some ⟨["x"]⟩, none] = .error "TypeError" := by
  have h := claim_C4 (fun _ _ => true) 1
    [some (⟨"w1", "W", some 3, "", "uw"⟩ : Track)] [some ⟨["x"]⟩, none]
  refine ⟨h.1 _ ?_, h.2 (by simp)⟩
  have hdedup : dedup_by_id
      ([some (⟨"w1", "W", some 3, "", "uw"⟩ : Track)].filterMap (fun x => x)) =
      [⟨"w1", "W", some 3, "", "uw"⟩] := rfl
  have hsort : sorted_tracks_of (fun _ _ => true)
      [(⟨"w1", "W", some 3, "", "uw"⟩ : Track)] =
      [⟨"w1", "W", some 3, "", "uw"⟩] := by
    unfold sorted_tracks_of
    exact List.mergeSort_singleton _
  show (⟨"w1", "W", some 3, "", "uw"⟩ : Track) ∈
    select_top 1 (sorted_tracks_of (fun _ _ => true)
      (dedup_by_id ([some (⟨"w1", "W", some 3, "", "uw"⟩ : Track)].filterMap
        (fun x => x))))
  rw [hdedup, hsort]
  rw [show select_top 1 [(⟨"w1", "W", some 3, "", "uw"⟩ : Track)] =
      [⟨"w1", "W", some 3, "", "uw"⟩] from rfl]
  exact List.mem_singleton.mpr rfl

/-- C10: the sort of lines 156-160 is stable — whenever the comparator
is transitive and total (as any key-based descending comparison is) and
accepts the ordered pair, two tracks appearing in that order in the
deduplicated input, in particular two tracks with equal scores, appear
in the same order in the sorted sequence; the selection is a pure
function of that sequence, so equal input gives identical output run to
run. -/
theorem claim_C10 (le : Track → Track → Bool)
    (htrans : ∀ a b c, le a b → le b c → le a c)
    (htotal : ∀ a b, le a b || le b a)
    (a b : Track) (fetched : List (Option Track))
    (hab : le a b = true) (_hba : le b a = true)
    (h : [a, b].Sublist (dedup_by_id (fetched.filterMap (fun x => x)))) :
    [a, b].Sublist
      (sorted_tracks_of le (dedup_by_id (fetched.filterMap (fun x => x)))) := by
  unfold sorted_tracks_of
  exact List.pair_sublist_mergeSort htrans htotal hab h

/-- Witness for C10: two equal-score tracks (under a comparator calling
them tied) fetched in order stay in fetch order after sorting. -/
theorem claim_C10_witness :
    [(⟨"a1", "A", some 5, "", "ua"⟩ : Track), ⟨"b1", "B", some 5, "", "ub"⟩].Sublist
      (sorted_tracks_of (fun _ _ => true)
        (dedup_by_id ([some (⟨"a1", "A", some 5, "", "ua"⟩ : Track),
          some ⟨"b1", "B", some 5, "", "ub"⟩].filterMap (fun x => x)))) := by
  have h : [(⟨"a1", "A", some 5, "", "ua"⟩ : Track),
      ⟨"b1", "B", some 5, "", "ub"⟩].Sublist
      (dedup_by_id ([some (⟨"a1", "A", some 5, "", "ua"⟩ : Track),
        some ⟨"b1", "B", some 5, "", "ub"⟩].filterMap (fun x => x))) := by
    rw [show dedup_by_id ([some (⟨"a1", "A", some 5, "", "ua"⟩ : Track),
        some ⟨"b1", "B", some 5, "", "ub"⟩].filterMap (fun x => x)) =
        [⟨"a1", "A", some 5, "", "ua"⟩, ⟨"b1", "B", some 5, "", "ub"⟩] from rfl]
  exact claim_C10 (fun _ _ => true) (fun _ _ _ _ _ => rfl) (fun _ _ => rfl)
    _ _ _ rfl rfl h

end TopNSpotify
